import Mathlib

/-!
Verification of the ZVP formula-distinguishing engine exercised by the
tutorial notebooks.  The notebooks drive an external ECC side-channel
toolkit; the engine itself (symbolic formula executor, factor-set engine,
ZVP point constructor, formula distinguisher) is described by the design
document and is embedded here from that description, while the code that
does appear in the notebooks (the zero-detection loop, the randomized
coordinate transform, the distinguishing driver) is embedded from the
notebook cells directly.
-/

namespace ZvpRe

/-- Field elements: the prime field used by all components. -/
abbrev F (p : ℕ) := ZMod p

/-- The elements of the field, listed for exhaustive search. -/
def fieldElems (p : ℕ) : List (F p) := (List.range p).map (fun n => (n : F p))

/-- The multiplicative inverse of a field element, computed by exhaustive
search (and 0 when no inverse exists), so that every component of the
engine is executable. -/
def finv {p : ℕ} (x : F p) : F p :=
  ((fieldElems p).find? (fun y => decide (y * x = 1))).getD 0

/-- Primitive operation kinds of a formula, the closed tagged variant of
the design document: add, sub, mul, sqr, inv, negate. -/
inductive Op where
  | add
  | sub
  | mul
  | sqr
  | neg
  | inv
deriving DecidableEq

/-- An operand of a primitive operation: a named variable or a small
integer constant appearing literally in the formula. -/
inductive Operand where
  | var (n : ℕ)
  | const (z : ℤ)
deriving DecidableEq

/-- One named primitive operation of a formula: it writes the result of
applying `op` to the two operands into the variable named `out`.
Unary operations (sqr, neg, inv) use only `lhs`. -/
structure Instr where
  out : ℕ
  op : Op
  lhs : Operand
  rhs : Operand
deriving DecidableEq

/-- Modelled from the spec: a Formula is an ordered sequence of named
primitive operations over named variables, together with its declared
output variable names.  Immutable once loaded; the concrete operation
lists of the EFD catalog are external inputs. -/
structure Formula where
  code : List Instr
  outputs : List ℕ
deriving DecidableEq

/-- The capability interface of the design document: the operations a
carrier type must provide so that one formula-execution routine works
unmodified over concrete field elements and symbolic polynomials. -/
structure RingOps (R : Type) where
  radd : R → R → R
  rsub : R → R → R
  rmul : R → R → R
  rneg : R → R
  rinv : R → R
  rofInt : ℤ → R

/-- Reading an operand: variables come from the environment, literal
constants are injected through the carrier's integer cast. -/
def readOperand {R : Type} (O : RingOps R) (env : ℕ → R) : Operand → R
  | Operand.var n => env n
  | Operand.const z => O.rofInt z

/-- Evaluating one primitive operation over the carrier. -/
def evalInstr {R : Type} (O : RingOps R) (env : ℕ → R) (i : Instr) : R :=
  match i.op with
  | Op.add => O.radd (readOperand O env i.lhs) (readOperand O env i.rhs)
  | Op.sub => O.rsub (readOperand O env i.lhs) (readOperand O env i.rhs)
  | Op.mul => O.rmul (readOperand O env i.lhs) (readOperand O env i.rhs)
  | Op.sqr => O.rmul (readOperand O env i.lhs) (readOperand O env i.lhs)
  | Op.neg => O.rneg (readOperand O env i.lhs)
  | Op.inv => O.rinv (readOperand O env i.lhs)

/-- Modelled from the spec: an ExecutionTrace is the ordered sequence of
(operation-name, value) pairs produced by running one Formula, plus the
final output values (one per declared output variable). -/
structure ExecTrace (R : Type) where
  ops : List (ℕ × R)
  outs : List R

/-- Executing a code list: each instruction produces exactly one new named
value, recorded in trace order, and updates the environment. -/
def runAux {R : Type} (O : RingOps R) (env : ℕ → R) :
    List Instr → (ℕ → R) × List (ℕ × R)
  | [] => (env, [])
  | i :: rest =>
    let v := evalInstr O env i
    let env2 := fun n => if n = i.out then v else env n
    let r := runAux O env2 rest
    (r.1, (i.out, v) :: r.2)

/-- Modelled from the spec: execute every primitive operation of the
formula in order over the carrier and return the full ExecutionTrace of
named intermediate values and the final outputs. -/
def runF {R : Type} (O : RingOps R) (f : Formula) (env : ℕ → R) : ExecTrace R :=
  let r := runAux O env f.code
  ⟨r.2, f.outputs.map r.1⟩

/-- The value of the i-th intermediate operation result of one execution,
if the trace is long enough. -/
def intermValue {R : Type} (O : RingOps R) (f : Formula) (i : ℕ) (env : ℕ → R) :
    Option R :=
  ((runF O f env).ops.map Prod.snd)[i]?

/-- Concrete field-element operations over `F p`. -/
def fieldOps (p : ℕ) : RingOps (F p) :=
  ⟨fun u v => u + v, fun u v => u - v, fun u v => u * v,
   fun u => -u, fun u => finv u, fun z => (z : F p)⟩

/-- A symbolic value: a polynomial function of the symbolic input
variables, the drop-in substitute for a field element used when tracing. -/
def SymVal (p : ℕ) := (ℕ → F p) → F p

/-- Pointwise operations on symbolic values. -/
def symOps (p : ℕ) : RingOps (SymVal p) :=
  ⟨fun u v σ => u σ + v σ, fun u v σ => u σ - v σ, fun u v σ => u σ * v σ,
   fun u σ => -(u σ), fun u σ => finv (u σ), fun z _ => (z : F p)⟩

/-- Modelled from the spec: the Symbolic Formula Executor.  Given a
Formula and symbolic input values for the point coordinates and curve
parameters, execute every primitive operation in formula order over the
symbolic carrier and return the ExecutionTrace. -/
def executeFormulaSymbolic (p : ℕ) (f : Formula) (senv : ℕ → SymVal p) :
    ExecTrace (SymVal p) :=
  runF (symOps p) f senv

/-- Modelled from the spec: the context-threading form of the executor.
The ambient context (the list of traces collected so far, as the default
context of the notebooks collects actions) is passed explicitly; the call
returns its own trace value and the context extended by exactly that
trace. -/
def executeFormulaSymbolicCtx (p : ℕ) (f : Formula) (senv : ℕ → SymVal p)
    (ctx : List (ExecTrace (SymVal p))) :
    ExecTrace (SymVal p) × List (ExecTrace (SymVal p)) :=
  let t := executeFormulaSymbolic p f senv
  (t, ctx ++ [t])

/-- A short-Weierstrass curve y^2 = x^3 + a x + b over `F p`. -/
structure Curve (p : ℕ) where
  a : F p
  b : F p
deriving DecidableEq

/-- The right-hand side of the curve equation at an x-coordinate. -/
def fRHS {p : ℕ} (c : Curve p) (x : F p) : F p :=
  x ^ 3 + c.a * x + c.b

/-- Membership of an affine point in the curve. -/
def onCurve {p : ℕ} (c : Curve p) (P : F p × F p) : Prop :=
  P.2 ^ 2 = fRHS c P.1

instance {p : ℕ} (c : Curve p) (P : F p × F p) : Decidable (onCurve c P) :=
  inferInstanceAs (Decidable (_ = _))

/-- An affine point: either the point at infinity or a coordinate pair. -/
abbrev AffPoint (p : ℕ) := Option (F p × F p)

/-- Affine point addition with the usual case split (identity, inverses,
doubling, generic chord), as provided by the external curve library. -/
def affAdd {p : ℕ} (c : Curve p) : AffPoint p → AffPoint p → AffPoint p
  | none, Q => Q
  | P, none => P
  | some (x1, y1), some (x2, y2) =>
    if x1 = x2 then
      if y1 = -y2 then none
      else
        let l := (3 * x1 ^ 2 + c.a) * finv (2 * y1)
        let x3 := l ^ 2 - 2 * x1
        some (x3, l * (x1 - x3) - y1)
    else
      let l := (y2 - y1) * finv (x2 - x1)
      let x3 := l ^ 2 - x1 - x2
      some (x3, l * (x1 - x3) - y1)

/-- Direct affine scalar multiplication, independent of the symbolic
pipeline: iterated affine addition. -/
def affMul {p : ℕ} (c : Curve p) : ℕ → AffPoint p → AffPoint p
  | 0, _ => none
  | k + 1, P => affAdd c (affMul c k P) P

/-- The randomized transform of an affine point into Jacobian coordinates
used by the distinguishing cell of the notebook: a non-zero scaling factor
l sends (x, y) to (x l^2, y l^3, l). -/
def toJacobianRandomized {p : ℕ} (P : F p × F p) (l : F p) : F p × F p × F p :=
  (P.1 * l ^ 2, P.2 * l ^ 3, l)

/-- Conversion of a Jacobian triple back to affine coordinates. -/
def jacToAffine {p : ℕ} (T : F p × F p × F p) : AffPoint p :=
  if T.2.2 = 0 then none else some (T.1 * finv (T.2.2 ^ 2), T.2.1 * finv (T.2.2 ^ 3))

/-- The input environment of a two-point formula on affine inputs lifted
through the Jacobian coordinate system: variables 0..5 hold X1, Y1, Z1,
X2, Y2, Z2 with X = x, Y = y and Z = 1 for both points. -/
def envAff {p : ℕ} (P Q : F p × F p) : ℕ → F p := fun n =>
  if n = 0 then P.1 else if n = 1 then P.2 else if n = 2 then 1
  else if n = 3 then Q.1 else if n = 4 then Q.2 else if n = 5 then 1 else 0

/-- The input environment of a two-point formula executed on Jacobian
inputs: variables 0..5 hold X1, Y1, Z1, X2, Y2, Z2. -/
def envJac {p : ℕ} (T U : F p × F p × F p) : ℕ → F p := fun n =>
  if n = 0 then T.1 else if n = 1 then T.2.1 else if n = 2 then T.2.2
  else if n = 3 then U.1 else if n = 4 then U.2.1
  else if n = 5 then U.2.2 else 0

/-- The i-th intermediate of a concrete execution of a formula on the two
affine points P and Q. -/
def affineInterm {p : ℕ} (f : Formula) (i : ℕ) (P Q : F p × F p) : Option (F p) :=
  intermValue (fieldOps p) f i (envAff P Q)

/-- The i-th intermediate of a concrete execution of a formula on the
randomized Jacobian representations of P and Q with scaling factors l and
m, as in the distinguishing cell of the notebook. -/
def intermJacRand {p : ℕ} (f : Formula) (i : ℕ) (P Q : F p × F p) (l m : F p) :
    Option (F p) :=
  intermValue (fieldOps p) f i
    (envJac (toJacobianRandomized P l) (toJacobianRandomized Q m))

/-- The zero-detection fold of the distinguishing cell: the notebook
initializes `zero` to false and or-accumulates an equality-with-zero test
over every operation result of the execution. -/
def zeroObserved {p : ℕ} (l : List (F p)) : Bool :=
  l.foldl (fun z v => z || decide (v = 0)) false

/-- A univariate polynomial over `F p`, as a little-endian coefficient
list, the representation used for the derived x-only polynomial. -/
abbrev UPoly (p : ℕ) := List (F p)

/-- Evaluation of a coefficient list by the Horner scheme. -/
def upEval {p : ℕ} (q : UPoly p) (x : F p) : F p :=
  q.foldr (fun c acc => c + x * acc) 0

/-- Coefficient-wise addition. -/
def upAdd {p : ℕ} : UPoly p → UPoly p → UPoly p
  | [], q => q
  | q, [] => q
  | a :: q, b :: r => (a + b) :: upAdd q r

/-- Coefficient-wise negation. -/
def upNeg {p : ℕ} (q : UPoly p) : UPoly p := q.map (fun c => -c)

/-- Subtraction. -/
def upSub {p : ℕ} (q r : UPoly p) : UPoly p := upAdd q (upNeg r)

/-- Polynomial multiplication. -/
def upMul {p : ℕ} : UPoly p → UPoly p → UPoly p
  | [], _ => []
  | a :: q, r => upAdd (r.map (fun c => a * c)) ((0 : F p) :: upMul q r)

/-- The constant polynomial of an integer. -/
def upOfInt (p : ℕ) (z : ℤ) : UPoly p := [(z : F p)]

/-- The curve equation right-hand side x^3 + a x + b as a polynomial. -/
def fpoly {p : ℕ} (c : Curve p) : UPoly p := [c.b, c.a, 0, 1]

/-- Root finding for a univariate polynomial over the field, by
exhaustive search, as provided by the external polynomial algebra
library. -/
def uroots {p : ℕ} (q : UPoly p) : List (F p) :=
  (fieldElems p).filter (fun x => decide (upEval q x = 0))

/-- Lifting an x-coordinate to the curve: the y values satisfying the
curve equation at x (zero, one or two of them). -/
def liftX {p : ℕ} (c : Curve p) (x : F p) : List (F p) :=
  (fieldElems p).filter (fun y => decide (y ^ 2 = fRHS c x))

/-- A rational function in x: numerator and denominator coefficient
lists. -/
abbrev RatF (p : ℕ) := UPoly p × UPoly p

def rfAdd {p : ℕ} (u v : RatF p) : RatF p :=
  (upAdd (upMul u.1 v.2) (upMul v.1 u.2), upMul u.2 v.2)

def rfMul {p : ℕ} (u v : RatF p) : RatF p :=
  (upMul u.1 v.1, upMul u.2 v.2)

def rfNeg {p : ℕ} (u : RatF p) : RatF p := (upNeg u.1, u.2)

def rfSub {p : ℕ} (u v : RatF p) : RatF p := rfAdd u (rfNeg v)

def rfOfInt (p : ℕ) (z : ℤ) : RatF p := (upOfInt p z, [1])

def rfZero (p : ℕ) : RatF p := ([], [1])

/-- A y-linear form c0(x) + y c1(x) of rational functions: the reduction
of a polynomial in (x, y) modulo the curve equation y^2 = f(x). -/
abbrev YLin (p : ℕ) := RatF p × RatF p

def ylAdd {p : ℕ} (u v : YLin p) : YLin p := (rfAdd u.1 v.1, rfAdd u.2 v.2)

def ylSub {p : ℕ} (u v : YLin p) : YLin p := (rfSub u.1 v.1, rfSub u.2 v.2)

/-- Multiplication of y-linear forms, replacing y^2 by f(x). -/
def ylMul {p : ℕ} (c : Curve p) (u v : YLin p) : YLin p :=
  (rfAdd (rfMul u.1 v.1) (rfMul (fpoly c, [1]) (rfMul u.2 v.2)),
   rfAdd (rfMul u.1 v.2) (rfMul u.2 v.1))

/-- Modelled from the spec: the multiplication-by-k map of the external
curve library, given as rational functions: the x-coordinate of kP is
xn(x)/xd(x) and its y-coordinate is y yn(x)/yd(x). -/
structure MultMap (p : ℕ) where
  xn : UPoly p
  xd : UPoly p
  yn : UPoly p
  yd : UPoly p

/-- The multiplication-by-one map. -/
def mmId (p : ℕ) : MultMap p := ⟨[0, 1], [1], [1], [1]⟩

/-- A target polynomial, in the two affine input points' coordinates and
integer constants, as produced by unrolling a two-input formula. -/
inductive PExpr where
  | x1
  | y1
  | x2
  | y2
  | const (z : ℤ)
  | padd (u v : PExpr)
  | psub (u v : PExpr)
  | pmul (u v : PExpr)
deriving DecidableEq

/-- Evaluation of a target polynomial at a concrete pair of affine
points. -/
def pEval {p : ℕ} (P Q : F p × F p) : PExpr → F p
  | PExpr.x1 => P.1
  | PExpr.y1 => P.2
  | PExpr.x2 => Q.1
  | PExpr.y2 => Q.2
  | PExpr.const z => (z : F p)
  | PExpr.padd u v => pEval P Q u + pEval P Q v
  | PExpr.psub u v => pEval P Q u - pEval P Q v
  | PExpr.pmul u v => pEval P Q u * pEval P Q v

/-- Modelled from the spec, steps 1 and 2 of the ZVP point construction:
substitute the multiplication-by-k map for the second point's coordinates
and reduce modulo the curve equation, producing the y-linear form of the
target polynomial in the first point's coordinates only. -/
def substMulMap {p : ℕ} (c : Curve p) (mm : MultMap p) : PExpr → YLin p
  | PExpr.x1 => (([0, 1], [1]), rfZero p)
  | PExpr.y1 => (rfZero p, ([1], [1]))
  | PExpr.x2 => ((mm.xn, mm.xd), rfZero p)
  | PExpr.y2 => (rfZero p, (mm.yn, mm.yd))
  | PExpr.const z => (rfOfInt p z, rfZero p)
  | PExpr.padd u v => ylAdd (substMulMap c mm u) (substMulMap c mm v)
  | PExpr.psub u v => ylSub (substMulMap c mm u) (substMulMap c mm v)
  | PExpr.pmul u v => ylMul c (substMulMap c mm u) (substMulMap c mm v)

/-- Modelled from the spec, step 2 continued: eliminate the remaining y
by multiplying with the conjugate and clearing denominators, yielding the
single-variable polynomial whose roots are the candidate x-coordinates. -/
def derivedUnivariate {p : ℕ} (c : Curve p) (mm : MultMap p) (e : PExpr) :
    UPoly p :=
  let s := substMulMap c mm e
  let q0 := upMul s.1.1 s.2.2
  let q1 := upMul s.2.1 s.1.2
  upSub (upMul q0 q0) (upMul (fpoly c) (upMul q1 q1))

/-- The error kind of the ZVP point constructor: an unsupported
discrete-log multiplier. -/
inductive ZvpErr where
  | domainError
deriving DecidableEq

/-- The value of the multiplication-by-k map at an affine point: the
rational functions of the map evaluated at its coordinates. -/
def mmApply {p : ℕ} (mm : MultMap p) (P : F p × F p) : F p × F p :=
  (upEval mm.xn P.1 * finv (upEval mm.xd P.1),
   P.2 * upEval mm.yn P.1 * finv (upEval mm.yd P.1))

/-- The check producing concrete ZVP points from a candidate (x, y): the
multiplication map must be defined there and the target polynomial must
evaluate to zero at the pair (P, kP). -/
def zvpCheck {p : ℕ} (mm : MultMap p) (e : PExpr) (x y : F p) : Bool :=
  decide (upEval mm.xd x ≠ 0) && decide (upEval mm.yd x ≠ 0) &&
  decide (pEval (x, y) (mmApply mm (x, y)) e = 0)

/-- Modelled from the spec: the ZVP Point Constructor.  Substitute the
multiplication-by-k map, eliminate y through the curve equation, find the
roots of the derived univariate polynomial in the field, lift each root
back to curve point(s) and keep those producing a concrete ZVPPoint; a
multiplier collapsing to the identity is a DomainError. -/
def zvp_points {p : ℕ} (e : PExpr) (c : Curve p) (mm : MultMap p)
    (k order : ℕ) : Except ZvpErr (List (F p × F p)) :=
  if k % order = 0 then Except.error ZvpErr.domainError
  else
    Except.ok ((uroots (derivedUnivariate c mm e)).flatMap (fun x =>
      ((liftX c x).filter (fun y => zvpCheck mm e x y)).map (fun y => (x, y))))

/-- Modelled from the spec: the external polynomial algebra library, the
collaborator the Factor-Set Engine delegates to.  It provides the
polynomial carrier with its ring operations, the affine-lifted input
polynomials for the formula variables, the predicates of the filtering
step (identically zero, nonzero constant, curve-parameters-only),
factorization into irreducibles, the irreducibility property itself, and
the decidable unit/scalar-multiple relation used for deduplication. -/
structure PolyAlg (P : Type) where
  ops : RingOps P
  varAssign : ℕ → P
  isZero : P → Bool
  isConstNZ : P → Bool
  paramOnly : P → Bool
  factor : P → List P
  Irred : P → Prop
  smul : P → P → Bool

/-- A polynomial is discarded when it is identically zero, a nonzero
constant, or has only curve parameters as variables: such a polynomial
can never be zeroed by choosing a point. -/
def discardable {P : Type} (A : PolyAlg P) (q : P) : Bool :=
  A.isZero q || A.isConstNZ q || A.paramOnly q

/-- Deduplication of a list up to a boolean relation, keeping the first
representative of each class; `seen` holds the representatives kept so
far. -/
def dedupByAux {P : Type} (r : P → P → Bool) :
    List P → List P → List P
  | _, [] => []
  | seen, x :: xs =>
    if seen.any (fun y => r y x) then dedupByAux r seen xs
    else x :: dedupByAux r (x :: seen) xs

/-- Deduplication of a list up to a boolean relation. -/
def dedupBy {P : Type} (r : P → P → Bool) (l : List P) : List P :=
  dedupByAux r [] l

/-- Modelled from the spec: the Factor-Set Engine.  Execute the formula
over the affine-lifted polynomial inputs, collect every intermediate
polynomial of the trace, filter out the unforceable ones, factor the rest
into irreducible factors, filter the factors by the same discard rule (the
FactorSet invariant applies to every member), and deduplicate up to
unit/scalar multiples. -/
def compute_factor_set {P : Type} (A : PolyAlg P) (f : Formula) : List P :=
  let inter := (runF A.ops f A.varAssign).ops.map Prod.snd
  let kept := inter.filter (fun q => !(discardable A q))
  let facs := kept.flatMap A.factor
  let goodFacs := facs.filter (fun g => !(discardable A g))
  dedupBy A.smul goodFacs

/-- A small test curve over the 5-element field, used for concrete
instantiations: y^2 = x^3 + 2. -/
def cW5 : Curve 5 := ⟨0, 2⟩

/-- The target polynomial x1 + 1 of the concrete instantiations. -/
def qW : PExpr := PExpr.padd PExpr.x1 (PExpr.const 1)

/-- The trivial cofactor polynomial. -/
def rW : PExpr := PExpr.const 1

/-- A one-operation formula whose single intermediate is X1 + 1. -/
def fW : Formula := ⟨[⟨10, Op.add, Operand.var 0, Operand.const 1⟩], [10]⟩

/-- A one-operation formula whose single intermediate is X1 + Z1, the
affine image of which is x1 + 1. -/
def fC3 : Formula := ⟨[⟨10, Op.add, Operand.var 0, Operand.var 2⟩], [10]⟩

/-- A one-operation formula whose single intermediate is X1 * X2, an
intermediate homogeneous of weight 2 in each input scaling. -/
def fHom : Formula := ⟨[⟨10, Op.mul, Operand.var 0, Operand.var 3⟩], [10]⟩

/-- Ring operations of the toy polynomial algebra instance. -/
def toyOps : RingOps (ZMod 7) :=
  ⟨fun u v => u + v, fun u v => u - v, fun u v => u * v,
   fun u => -u, fun u => finv u, fun z => (z : ZMod 7)⟩

/-- A toy instance of the external polynomial algebra interface over the
7-element field, used to instantiate the factor-set postcondition: zero
and one are the non-factorable elements, everything else is its own
irreducible factor, and any two nonzero elements count as scalar
multiples (every nonzero element is a unit times any other). -/
def toyAlg : PolyAlg (ZMod 7) :=
  ⟨toyOps, fun _ => 3, fun q => decide (q = 0), fun _ => false, fun _ => false,
   fun q => if q = 0 ∨ q = 1 then [] else [q],
   fun q => q ≠ 0 ∧ q ≠ 1,
   fun u v => decide (u ≠ 0) && decide (v ≠ 0)⟩

/-- A one-operation toy formula for the factor-set instantiation. -/
def toyFormula : Formula := ⟨[⟨10, Op.mul, Operand.var 0, Operand.var 1⟩], [10]⟩

instance : Fact (Nat.Prime 5) := ⟨by norm_num⟩

instance (g : ZMod 7) : Decidable (toyAlg.Irred g) :=
  inferInstanceAs (Decidable (g ≠ 0 ∧ g ≠ 1))

theorem mem_fieldElems {p : ℕ} [NeZero p] (z : F p) : z ∈ fieldElems p := by
  have h1 : z.val ∈ List.range p := List.mem_range.mpr (ZMod.val_lt z)
  have h2 := List.mem_map_of_mem (fun n : ℕ => (n : F p)) h1
  have h3 : ((z.val : ℕ) : F p) = z := ZMod.natCast_rightInverse z
  rw [fieldElems]
  simpa [h3, eq_comm] using h2

theorem finv_mul_cancel {p : ℕ} [Fact (Nat.Prime p)] (x : F p) (hx : x ≠ 0) :
    x * finv x = 1 := by
  haveI : NeZero p := ⟨Nat.Prime.ne_zero Fact.out⟩
  rw [finv]
  cases hfind : (fieldElems p).find? (fun y => decide (y * x = 1)) with
  | none =>
    exfalso
    have hnone := List.find?_eq_none.mp hfind x⁻¹ (mem_fieldElems x⁻¹)
    exact hnone (decide_eq_true (inv_mul_cancel₀ hx))
  | some y =>
    have hy := List.find?_some hfind
    simp only [decide_eq_true_eq] at hy
    rw [Option.getD_some, mul_comm]
    exact hy

theorem mem_of_mem_dedupByAux {P : Type} {r : P → P → Bool} {a : P} :
    ∀ {seen l : List P}, a ∈ dedupByAux r seen l → a ∈ l := by
  intro seen l
  induction l generalizing seen with
  | nil => intro h; simp [dedupByAux] at h
  | cons x xs ih =>
    intro h
    by_cases hx : seen.any (fun y => r y x)
    · rw [dedupByAux, if_pos hx] at h
      exact List.mem_cons_of_mem x (ih h)
    · rw [dedupByAux, if_neg hx] at h
      rcases List.mem_cons.mp h with h1 | h2
      · exact h1 ▸ List.mem_cons_self x xs
      · exact List.mem_cons_of_mem x (ih h2)

theorem dedupByAux_unrelated_seen {P : Type} {r : P → P → Bool} {a : P} :
    ∀ {seen l : List P}, a ∈ dedupByAux r seen l →
      ∀ s ∈ seen, r s a = false := by
  intro seen l
  induction l generalizing seen with
  | nil => intro h; simp [dedupByAux] at h
  | cons x xs ih =>
    intro h s hs
    by_cases hx : seen.any (fun y => r y x)
    · rw [dedupByAux, if_pos hx] at h
      exact ih h s hs
    · rw [dedupByAux, if_neg hx] at h
      rcases List.mem_cons.mp h with h1 | h2
      · subst h1
        cases hb : r s a with
        | false => rfl
        | true => exact absurd (List.any_eq_true.mpr ⟨s, hs, hb⟩) hx
      · exact ih h2 s (List.mem_cons_of_mem x hs)

theorem dedupByAux_pairwise {P : Type} {r : P → P → Bool}
    (hsym : ∀ u v, r u v = r v u) :
    ∀ {seen l : List P} {a b : P}, a ∈ dedupByAux r seen l →
      b ∈ dedupByAux r seen l → a ≠ b → r a b = false := by
  intro seen l
  induction l generalizing seen with
  | nil => intro a b h; simp [dedupByAux] at h
  | cons x xs ih =>
    intro a b ha hb hne
    by_cases hx : seen.any (fun y => r y x)
    · rw [dedupByAux, if_pos hx] at ha hb
      exact ih ha hb hne
    · rw [dedupByAux, if_neg hx] at ha hb
      rcases List.mem_cons.mp ha with ha1 | ha2
      · rcases List.mem_cons.mp hb with hb1 | hb2
        · exact absurd (ha1.trans hb1.symm) hne
        · subst ha1
          exact dedupByAux_unrelated_seen hb2 a (List.mem_cons_self a _)
      · rcases List.mem_cons.mp hb with hb1 | hb2
        · subst hb1
          rw [hsym]
          exact dedupByAux_unrelated_seen ha2 b (List.mem_cons_self b _)
        · exact ih ha2 hb2 hne

theorem mem_of_mem_dedupBy {P : Type} {r : P → P → Bool} {a : P} {l : List P}
    (h : a ∈ dedupBy r l) : a ∈ l :=
  mem_of_mem_dedupByAux h

theorem dedupBy_pairwise {P : Type} {r : P → P → Bool}
    (hsym : ∀ u v, r u v = r v u) {l : List P} {a b : P}
    (ha : a ∈ dedupBy r l) (hb : b ∈ dedupBy r l) (hne : a ≠ b) :
    r a b = false :=
  dedupByAux_pairwise hsym ha hb hne

theorem foldl_or_eq_any {α : Type} (g : α → Bool) :
    ∀ (l : List α) (b : Bool), l.foldl (fun z v => z || g v) b = (b || l.any g) := by
  intro l
  induction l with
  | nil => intro b; simp
  | cons x xs ih =>
    intro b
    rw [List.foldl_cons, ih, List.any_cons, Bool.or_assoc]

/-- Claim C5: for every target polynomial, curve, multiplier and order
such that the derived univariate polynomial has no root in the field, the
ZVP point constructor returns the empty set through the success channel:
the Except value is `ok []`, not an error, so the empty outcome is
distinguishable from a failure. -/
theorem zvp_points_empty_is_ok {p : ℕ} (e : PExpr) (c : Curve p)
    (mm : MultMap p) (k order : ℕ) (hk : ¬ k % order = 0)
    (hroots : uroots (derivedUnivariate c mm e) = []) :
    zvp_points e c mm k order = Except.ok [] := by
  rw [zvp_points, if_neg hk, hroots]
  rfl

/-- Witness for C5: on the small test curve, the constant target
polynomial 1 derives a root-free univariate polynomial and the
constructor returns `ok []`. -/
theorem zvp_points_empty_is_ok_witness :
    zvp_points (PExpr.const 1) cW5 (mmId 5) 1 7 = Except.ok [] :=
  zvp_points_empty_is_ok (PExpr.const 1) cW5 (mmId 5) 1 7 (by decide) (by decide)

/-- Claim C6: the factor set of a formula is a function of the formula's
static structure only: a second call on the same formula returns an equal
set, and any formula with the same code and outputs gets the same factor
set, so the result is safe to cache. -/
theorem compute_factor_set_idempotent {P : Type} (A : PolyAlg P)
    (f g : Formula) (hcode : f.code = g.code) (houts : f.outputs = g.outputs) :
    compute_factor_set A f = compute_factor_set A f ∧
    compute_factor_set A f = compute_factor_set A g := by
  constructor
  · rfl
  · cases f
    cases g
    cases hcode
    cases houts
    rfl

/-- Witness for C6: the toy factor-set computation agrees with itself on
the toy formula. -/
theorem compute_factor_set_idempotent_witness :
    compute_factor_set toyAlg toyFormula = compute_factor_set toyAlg toyFormula ∧
    compute_factor_set toyAlg toyFormula = compute_factor_set toyAlg toyFormula :=
  compute_factor_set_idempotent toyAlg toyFormula toyFormula rfl rfl

/-- Claim C7: symbolic execution is deterministic: running the executor
twice in a row on a fixed formula and fixed symbolic inputs (the second
run starting from the context produced by the first) produces identical
ExecutionTraces: the same ordered sequence of named intermediate
polynomials and the same output polynomials. -/
theorem executeFormulaSymbolic_deterministic (p : ℕ) (f : Formula)
    (senv : ℕ → SymVal p) (ctx : List (ExecTrace (SymVal p))) :
    (executeFormulaSymbolicCtx p f senv ctx).1 =
      (executeFormulaSymbolicCtx p f senv
        (executeFormulaSymbolicCtx p f senv ctx).2).1 ∧
    ((executeFormulaSymbolicCtx p f senv ctx).1).ops =
      ((executeFormulaSymbolicCtx p f senv
        (executeFormulaSymbolicCtx p f senv ctx).2).1).ops ∧
    ((executeFormulaSymbolicCtx p f senv ctx).1).outs =
      ((executeFormulaSymbolicCtx p f senv
        (executeFormulaSymbolicCtx p f senv ctx).2).1).outs :=
  ⟨rfl, rfl, rfl⟩

/-- Claim C8: the symbolic executor is pure: a call threaded through an
ambient context leaves the context unchanged except for appending its own
trace, and the trace it returns is exactly the trace of the context-free
executor, independent of the ambient state. -/
theorem executeFormulaSymbolic_pure (p : ℕ) (f : Formula)
    (senv : ℕ → SymVal p) (ctx : List (ExecTrace (SymVal p))) :
    (executeFormulaSymbolicCtx p f senv ctx).2 =
      ctx ++ [executeFormulaSymbolic p f senv] ∧
    (executeFormulaSymbolicCtx p f senv ctx).1 =
      executeFormulaSymbolic p f senv :=
  ⟨rfl, rfl⟩

/-- Claim C9: the zero-observed verdict of the distinguishing loop is true
exactly when at least one intermediate operation result of the execution
equals zero: the or-fold of the notebook is a disjunction over all
intermediates, not restricted to the target one. -/
theorem zeroObserved_iff_exists_zero (p : ℕ) (f : Formula) (env : ℕ → F p) :
    zeroObserved ((runF (fieldOps p) f env).ops.map Prod.snd) = true ↔
      ∃ v ∈ (runF (fieldOps p) f env).ops.map Prod.snd, v = 0 := by
  rw [zeroObserved, foldl_or_eq_any, Bool.false_or, List.any_eq_true]
  simp only [decide_eq_true_eq]

/-- Claim C10: the randomized transform into Jacobian coordinates
preserves the underlying point: for every affine point on the curve and
every non-zero scaling factor, converting the randomized representative
back to affine recovers the original point, and the discrete-log
relationship established by direct affine multiplication still holds
between the two transformed inputs. -/
theorem toJacobianRandomized_preserves_point {p : ℕ} [Fact (Nat.Prime p)]
    (c : Curve p) (P Q : F p × F p) (k : ℕ) (l m : F p)
    (_hP : onCurve c P) (hl : l ≠ 0) (hm : m ≠ 0)
    (hQ : affMul c k (some P) = some Q) :
    jacToAffine (toJacobianRandomized P l) = some P ∧
    jacToAffine (toJacobianRandomized Q m) = affMul c k (some P) := by
  have cancel : ∀ (u w : F p), w ≠ 0 → u * w * finv w = u := by
    intro u w hw
    rw [mul_assoc, finv_mul_cancel w hw, mul_one]
  constructor
  · simp only [toJacobianRandomized, jacToAffine]
    rw [if_neg hl, cancel P.1 (l ^ 2) (pow_ne_zero 2 hl),
      cancel P.2 (l ^ 3) (pow_ne_zero 3 hl), Prod.mk.eta]
  · rw [hQ]
    simp only [toJacobianRandomized, jacToAffine]
    rw [if_neg hm, cancel Q.1 (m ^ 2) (pow_ne_zero 2 hm),
      cancel Q.2 (m ^ 3) (pow_ne_zero 3 hm), Prod.mk.eta]

/-- Witness for C10: on the small test curve, the point (4, 1) and its
double (3, 3), randomized with factors 2 and 3, both recover under
conversion back to affine, and the multiple relation survives. -/
theorem toJacobianRandomized_preserves_point_witness :
    jacToAffine (toJacobianRandomized ((4 : ZMod 5), 1) 2) = some (4, 1) ∧
    jacToAffine (toJacobianRandomized ((3 : ZMod 5), 3) 3) =
      affMul cW5 2 (some (4, 1)) :=
  toJacobianRandomized_preserves_point cW5 (4, 1) (3, 3) 2 2 3
    (by decide) (by decide) (by decide) (by decide)

/-- Claim C4: every member of a computed factor set is an irreducible
polynomial (as certified by the external factorizer), is not identically
zero, not a nonzero constant, not a curve-parameters-only polynomial, and
no two distinct members are unit/scalar multiples of each other. -/
theorem compute_factor_set_post {P : Type} (A : PolyAlg P) (f : Formula)
    (hfac : ∀ q g, g ∈ A.factor q → A.Irred g)
    (hsym : ∀ u v, A.smul u v = A.smul v u) :
    ∀ g ∈ compute_factor_set A f,
      A.Irred g ∧ A.isZero g = false ∧ A.isConstNZ g = false ∧
      A.paramOnly g = false ∧
      ∀ h2 ∈ compute_factor_set A f, g ≠ h2 → A.smul g h2 = false := by
  intro g hg
  have hg1 : g ∈ ((((runF A.ops f A.varAssign).ops.map Prod.snd).filter
      (fun q => !(discardable A q))).flatMap A.factor).filter
      (fun x => !(discardable A x)) := mem_of_mem_dedupBy hg
  rcases List.mem_filter.mp hg1 with ⟨hmem, hknot⟩
  have hd : discardable A g = false := by simpa using hknot
  rw [discardable, Bool.or_eq_false_iff, Bool.or_eq_false_iff] at hd
  rcases hd with ⟨⟨hz, hc⟩, hpo⟩
  rcases List.mem_flatMap.mp hmem with ⟨q, hqmem, hgq⟩
  refine ⟨hfac q g hgq, hz, hc, hpo, ?_⟩
  intro h2 hh2 hne
  exact dedupBy_pairwise hsym hg hh2 hne

/-- Witness for C4: the single member 2 of the toy factor set satisfies
the postcondition components. -/
theorem compute_factor_set_post_witness :
    toyAlg.Irred 2 ∧ toyAlg.isZero 2 = false ∧ toyAlg.isConstNZ 2 = false ∧
    toyAlg.paramOnly 2 = false := by
  have h := compute_factor_set_post toyAlg toyFormula
    (by decide) (by decide) 2 (by decide)
  exact ⟨h.1, h.2.1, h.2.2.1, h.2.2.2.1⟩

/-- Counterexample to claim C3 as stated: on the small test curve the ZVP
point (4, 1) (returned by the constructor for the target polynomial
x1 + 1 with its known multiple for k = 1) zeroes the target intermediate
X1 + Z1 of a formula when the projective scaling factors are 1, but with
scaling factor 2 on the first input the same intermediate is non-zero, so
zero-ness of an arbitrary target intermediate is not invariant under
coordinate re-randomization. -/
theorem randomization_changes_zero_verdict :
    zvp_points qW cW5 (mmId 5) 1 7 = Except.ok [((4 : ZMod 5), 1), (4, 4)] ∧
    affMul cW5 1 (some ((4 : ZMod 5), 1)) = some (4, 1) ∧
    affineInterm fC3 0 ((4 : ZMod 5), 1) (4, 1) =
      some (pEval ((4 : ZMod 5), 1) (4, 1) qW) ∧
    intermJacRand fC3 0 ((4 : ZMod 5), 1) (4, 1) 1 1 = some 0 ∧
    ¬ intermJacRand fC3 0 ((4 : ZMod 5), 1) (4, 1) 2 1 = some 0 ∧
    (1 : ZMod 5) ≠ 0 ∧ (2 : ZMod 5) ≠ 0 := by
  refine ⟨rfl, rfl, rfl, rfl, ?_, ?_, ?_⟩ <;> decide

/-- Claim C3 as amended: for an intermediate that is weight-homogeneous
under the Jacobian scalings of the two inputs (scaling the inputs by
non-zero factors l and m multiplies its value by a fixed monomial
l^w1 m^w2), the zero-ness of the intermediate is the same in any two
randomized executions. -/
theorem randomization_invariance_of_homogeneous {p : ℕ} [Fact (Nat.Prime p)]
    (f : Formula) (i : ℕ) (P Q : F p × F p) (w1 w2 : ℕ) (v : F p)
    (hom : ∀ l m : F p, l ≠ 0 → m ≠ 0 →
      intermJacRand f i P Q l m = some (l ^ w1 * m ^ w2 * v))
    (l1 m1 l2 m2 : F p) (h1 : l1 ≠ 0) (h2 : m1 ≠ 0) (h3 : l2 ≠ 0)
    (h4 : m2 ≠ 0) :
    (intermJacRand f i P Q l1 m1 = some 0 ↔
     intermJacRand f i P Q l2 m2 = some 0) := by
  rw [hom l1 m1 h1 h2, hom l2 m2 h3 h4]
  have e1 : (l1 ^ w1 * m1 ^ w2 : F p) ≠ 0 :=
    mul_ne_zero (pow_ne_zero _ h1) (pow_ne_zero _ h2)
  have e2 : (l2 ^ w1 * m2 ^ w2 : F p) ≠ 0 :=
    mul_ne_zero (pow_ne_zero _ h3) (pow_ne_zero _ h4)
  simp [mul_eq_zero, e1, e2]

/-- Witness for the amended C3: the intermediate X1 * X2 is homogeneous of
weight (2, 2), so its zero verdict agrees between the scalings (2, 3) and
(4, 1). -/
theorem randomization_invariance_of_homogeneous_witness :
    (intermJacRand fHom 0 ((2 : ZMod 5), 1) (3, 1) 2 3 = some 0 ↔
     intermJacRand fHom 0 ((2 : ZMod 5), 1) (3, 1) 4 1 = some 0) :=
  randomization_invariance_of_homogeneous fHom 0 (2, 1) (3, 1) 2 2 1
    (by decide) 2 3 4 1 (by decide) (by decide) (by decide) (by decide)

/-- Claim C2: soundness of ZVP points: every point returned by the
constructor, paired with its multiple computed by direct affine scalar
multiplication (which agrees with the substituted multiplication map
where defined), makes the intermediate corresponding to the target
polynomial evaluate to zero when the formula is executed on the pair. -/
theorem zvp_points_sound {p : ℕ} (e : PExpr) (c : Curve p) (mm : MultMap p)
    (k order : ℕ) (f : Formula) (i : ℕ) (r : PExpr)
    (hmap : ∀ x y : F p, onCurve c (x, y) → upEval mm.xd x ≠ 0 →
      upEval mm.yd x ≠ 0 → affMul c k (some (x, y)) = some (mmApply mm (x, y)))
    (hq : ∀ A B : F p × F p, affineInterm f i A B =
      some (pEval A B e * pEval A B r))
    (pts : List (F p × F p)) (hok : zvp_points e c mm k order = Except.ok pts)
    (Pt : F p × F p) (hP : Pt ∈ pts) :
    affMul c k (some Pt) = some (mmApply mm Pt) ∧
    affineInterm f i Pt (mmApply mm Pt) = some 0 := by
  rw [zvp_points] at hok
  by_cases hk : k % order = 0
  · rw [if_pos hk] at hok
    exact Except.noConfusion hok
  · rw [if_neg hk] at hok
    injection hok with hpts
    subst hpts
    rcases List.mem_flatMap.mp hP with ⟨x, hx, hPx⟩
    rcases List.mem_map.mp hPx with ⟨y, hy, hxy⟩
    rcases List.mem_filter.mp hy with ⟨hylift, hchk⟩
    have honc : onCurve c (x, y) := by
      rcases List.mem_filter.mp hylift with ⟨-, hy2⟩
      exact of_decide_eq_true hy2
    rw [zvpCheck] at hchk
    rcases Bool.and_eq_true_iff.mp hchk with ⟨hchk1, hev⟩
    rcases Bool.and_eq_true_iff.mp hchk1 with ⟨hxd, hyd⟩
    have hxd2 : upEval mm.xd x ≠ 0 := of_decide_eq_true hxd
    have hyd2 : upEval mm.yd x ≠ 0 := of_decide_eq_true hyd
    have hev2 : pEval (x, y) (mmApply mm (x, y)) e = 0 := of_decide_eq_true hev
    subst hxy
    refine ⟨hmap x y honc hxd2 hyd2, ?_⟩
    rw [hq (x, y) (mmApply mm (x, y)), hev2, zero_mul]

/-- Witness for C2: the point (4, 1) returned by the constructor for the
target x1 + 1 on the small test curve with k = 1: its affine multiple
agrees with the map and the target intermediate of the formula is zero
there. -/
theorem zvp_points_sound_witness :
    affMul cW5 1 (some ((4 : ZMod 5), 1)) = some (mmApply (mmId 5) (4, 1)) ∧
    affineInterm fW 0 ((4 : ZMod 5), 1) (mmApply (mmId 5) (4, 1)) = some 0 :=
  zvp_points_sound qW cW5 (mmId 5) 1 7 fW 0 rW (by decide) (by decide)
    [((4 : ZMod 5), 1), (4, 4)] rfl (4, 1) (by decide)

end ZvpRe
